import Mathlib

/-
Verification of the statistical simulation core of the cosine-distance
concentration visualization (src/src/ArtifactCode.jsx).  The definitions below
are a shallow embedding of the algorithmic parts of that file: randomness is
made explicit by passing the drawn values as arguments, machine floats are
modelled by exact arithmetic (rationals for the algebraic pipeline, reals where
a square root, logarithm or cosine occurs), and a JavaScript expression whose
value is NaN (division by zero, out-of-bounds array read) is modelled by the
value none of an Option type.
-/

set_option maxHeartbeats 1000000
set_option maxRecDepth 8000

namespace HDCM

/-- Box-Muller body, src line 18: the value computed once the redraw guards of
lines 16-17 have ensured that u and v are nonzero. -/
noncomputable def normalRandom (u v : ℝ) : ℝ :=
  Real.sqrt (-2.0 * Real.log u) * Real.cos (2.0 * Real.pi * v)

/-- Redraw loop of src lines 15-17: starting from 0, keep drawing while the
current value is exactly 0.  The loop is modelled on a finite prefix of the
random stream; the result is the first nonzero draw, or none when the prefix is
exhausted with the loop still spinning. -/
def firstNonzero : List ℚ → Option ℚ
  | [] => none
  | x :: xs => if x = 0 then firstNonzero xs else some x

/-- generateRandomUnitVector, src lines 22-40, applied to the list of dimension
normal variates already drawn for the coordinates.  The source divides every
coordinate by the magnitude unconditionally; when the magnitude is 0 every
coordinate is 0 and the JavaScript division 0/0 yields NaN coordinates,
modelled here as none.  There is no discard-and-resample path in the source. -/
noncomputable def generateRandomUnitVector (vals : List ℝ) : Option (List ℝ) :=
  let sumSquared := (vals.map fun x => x * x).sum
  let magnitude := Real.sqrt sumSquared
  if magnitude = 0 then none
  else some (vals.map fun x => x / magnitude)

/-- Dot-product loop of calculateCosineDistance, src lines 44-49, in the case
where vec2 has at least as many entries as vec1: the loop reads exactly the
first vec1.length entries of each list, so extra entries of vec2 are ignored. -/
def dotProduct (vec1 vec2 : List ℚ) : ℚ :=
  (List.zipWith (fun a b => a * b) vec1 vec2).sum

/-- calculateCosineDistance, src lines 43-54.  The loop runs over the indices
of vec1; when vec2 is shorter, the read vec2[i] is undefined and the
accumulated dot product is NaN, modelled as none.  The source contains no
length check and no clamping inside this function. -/
def calculateCosineDistance (vec1 vec2 : List ℚ) : Option ℚ :=
  if vec2.length < vec1.length then none
  else some (1 - dotProduct vec1 vec2)

/-- Clamp of src line 104, applied by the scheduler loop to the value returned
by calculateCosineDistance. -/
def clampDistance (x : ℚ) : ℚ := max 0 (min 2 x)

/-- Scaling factor of src line 107. -/
noncomputable def scalingFactor (dim : ℕ) : ℝ :=
  if dim ≤ 3 then Real.sqrt dim * 1.5 else Real.sqrt dim

/-- Normalized distance of src line 108. -/
noncomputable def normalizedDistance (clamped : ℝ) (dim : ℕ) : ℝ :=
  (clamped - 1.0) * scalingFactor dim + 1.0

/-- Sample-size policy getAdjustedSampleSize, src lines 64-68. -/
def getAdjustedSampleSize (dim : ℕ) : ℕ :=
  if dim ≤ 32 then 10000 else if dim ≤ 256 then 20000 else 50000

/-- Batch size constant of src line 89. -/
def batchSize : ℕ := 100

/-- Number of batches, src line 90: Math.ceil of sampleSize over batchSize. -/
def numBatches (sampleSize : ℕ) : ℕ := (sampleSize + batchSize - 1) / batchSize

/-- Size of one batch, src line 93: Math.min of batchSize and the remaining
sample budget. -/
def currentBatchSize (sampleSize batch : ℕ) : ℕ :=
  min batchSize (sampleSize - batch * batchSize)

/-- Overall iteration indices visited by the nested batch loops of src lines
92-125: iteration i of batch b is overall draw number b * batchSize + i,
because every earlier batch is full. -/
def batchIndices (sampleSize : ℕ) : List ℕ :=
  ((List.range (numBatches sampleSize)).map fun b =>
    (List.range (currentBatchSize sampleSize b)).map fun i =>
      b * batchSize + i).flatten

/-- Sample list produced by the batched loops when overall iteration k yields
the value draw k (the random source is consumed sequentially, so the value of
iteration k does not depend on where the batch boundaries fall). -/
def batchedSamples {α : Type} (draw : ℕ → α) (sampleSize : ℕ) : List α :=
  (batchIndices sampleSize).map draw

/-- One iteration of the running accumulation of src lines 117-118: the state
is the pair of sumDistances and sumSquaredDistances. -/
def accumStep (s : ℚ × ℚ) (x : ℚ) : ℚ × ℚ := (s.1 + x, s.2 + x * x)

/-- Accumulator state after folding a whole sample list, initialised at
src lines 85-86. -/
def accumState (xs : List ℚ) : ℚ × ℚ := xs.foldl accumStep (0, 0)

/-- Finalization of src lines 128-129: mean is sum over n, variance is sumSq
over n minus the squared mean.  The JavaScript division by n = 0 yields NaN,
modelled as none; the source performs no zero-count check. -/
def finalizeStats (sampleSize : ℕ) (sum sumSq : ℚ) : Option ℚ × Option ℚ :=
  if sampleSize = 0 then (none, none)
  else (some (sum / (sampleSize : ℚ)),
    some (sumSq / (sampleSize : ℚ) -
      (sum / (sampleSize : ℚ)) * (sum / (sampleSize : ℚ))))

/-- Modelled from the spec: the Welford online update that spec section 4.4
claims for the StatisticsAccumulator; the state is (count, mean, M2), absent
from the source, which keeps (sum, sumSq) instead. -/
def welfordStep : ℕ × ℚ × ℚ → ℚ → ℕ × ℚ × ℚ
  | (n, mean, m2), x =>
    let n1 := n + 1
    let d := x - mean
    let mean1 := mean + d / (n1 : ℚ)
    (n1, mean1, m2 + d * (x - mean1))

/-- Modelled from the spec: Welford state after folding a whole sample list. -/
def welfordState (xs : List ℚ) : ℕ × ℚ × ℚ := xs.foldl welfordStep (0, 0, 0)

/-- Record assembled per dimension, src lines 144-152, restricted to the
fields the claims concern: the standard deviations of the source are the
square roots of the variances kept here, and the normalized statistics are the
image of the retained samples under normalizedDistance. -/
structure DimensionRecord where
  dimension : ℕ
  sampleCount : ℕ
  originalMean : Option ℚ
  originalVariance : Option ℚ
  samples : List ℚ
  deriving DecidableEq

/-- Body of the per-dimension loop of src lines 74-156, with the raw
per-iteration distances supplied by draw; the clamp of line 104 is applied to
each drawn distance before it is stored and accumulated. -/
def processDimension (draw : ℕ → ℚ) (dim sampleSize : ℕ) : DimensionRecord :=
  let samples := batchedSamples (fun k => clampDistance (draw k)) sampleSize
  let st := accumState samples
  let fin := finalizeStats sampleSize st.1 st.2
  ⟨dim, sampleSize, fin.1, fin.2, samples⟩

/-- generateSyntheticData, src lines 58-173, parameterised by the sample-size
policy (inlined as getAdjustedSampleSize in the source) and by the random
draws.  The function is total: no execution path aborts or skips a dimension,
and the source defines no InvalidSampleSize or InsufficientSamples error. -/
def generateSyntheticData (policy : ℕ → ℕ) (draws : ℕ → ℕ → ℚ)
    (dims : List ℕ) : List DimensionRecord :=
  dims.map fun d => processDimension (draws d) d (policy d)

/-- Bin width, src line 192. -/
def binWidth (mn mx : ℚ) (binCnt : ℕ) : ℚ := (mx - mn) / (binCnt : ℚ)

/-- Bin assignment of src line 199. -/
def binIndexOf (mn w v : ℚ) : ℤ := Int.floor ((v - mn) / w)

/-- Count landing in bin i after the counting loop of src lines 198-203: a
value whose bin index falls outside the guard range increments no bin and is
silently dropped. -/
def binCountAt (vals : List ℚ) (mn w : ℚ) (i : ℕ) : ℕ :=
  vals.countP fun v => decide (binIndexOf mn w v = (i : ℤ))

/-- Density of src line 208: count over samples.length over binSize, where
samples.length counts every sample including the dropped ones. -/
def densityAt (vals : List ℚ) (mn w : ℚ) (i : ℕ) : ℚ :=
  ((binCountAt vals mn w i : ℚ) / ((vals.length : ℚ))) / w

/-! Helper lemmas shared by the claim theorems. -/

/-- The redraw loop of src lines 15-17 can only deliver a nonzero draw. -/
lemma firstNonzero_ne_zero (ds : List ℚ) (u : ℚ) (h : firstNonzero ds = some u) :
    u ≠ 0 := by
  induction ds with
  | nil => simp [firstNonzero] at h
  | cons x xs ih =>
    by_cases hx : x = 0
    · exact ih (by simpa [firstNonzero, hx] using h)
    · simp only [firstNonzero, if_neg hx, Option.some.injEq] at h
      exact h ▸ hx

/-- When the sum of squared coordinates is nonzero, the division loop of src
lines 35-37 produces a vector of squared norm exactly 1. -/
lemma generateRandomUnitVector_normSq (vals : List ℝ)
    (hs : (vals.map fun x => x * x).sum ≠ 0) :
    ∃ w, generateRandomUnitVector vals = some w ∧ (w.map fun x => x * x).sum = 1 := by
  set s : ℝ := (vals.map fun x => x * x).sum with hsdef
  have hs0 : 0 ≤ s := by
    apply List.sum_nonneg
    intro y hy
    obtain ⟨x, -, rfl⟩ := List.mem_map.mp hy
    exact mul_self_nonneg x
  have hspos : 0 < s := lt_of_le_of_ne hs0 (Ne.symm hs)
  have hm : Real.sqrt s ≠ 0 := ne_of_gt (Real.sqrt_pos.mpr hspos)
  refine ⟨vals.map fun x => x / Real.sqrt s, ?_, ?_⟩
  · unfold generateRandomUnitVector
    rw [← hsdef, if_neg hm]
  · have hmap : ((vals.map fun x => x / Real.sqrt s).map fun x => x * x)
        = vals.map fun x => (x * x) * (Real.sqrt s * Real.sqrt s)⁻¹ := by
      rw [List.map_map]
      apply List.map_congr_left
      intro x _
      simp only [Function.comp_apply]
      rw [div_mul_div_comm, div_eq_mul_inv]
    rw [hmap]
    have := List.sum_map_mul_right vals (fun x => x * x)
      ((Real.sqrt s * Real.sqrt s)⁻¹)
    rw [this, ← hsdef, Real.mul_self_sqrt hs0]
    exact mul_inv_cancel₀ hs

/-- The naive accumulator of src lines 117-118 folded from an arbitrary start. -/
lemma accumState_from (xs : List ℚ) (a b : ℚ) :
    xs.foldl accumStep (a, b) = (a + xs.sum, b + (xs.map fun x => x * x).sum) := by
  induction xs generalizing a b with
  | nil => simp
  | cons x xs ih =>
    simp only [List.foldl_cons, accumStep, List.sum_cons, List.map_cons, ih,
      Prod.mk.injEq]
    constructor <;> ring

/-- The running state kept by the source is the pair of the plain sum and the
plain sum of squares. -/
lemma accumState_eq (xs : List ℚ) :
    accumState xs = (xs.sum, (xs.map fun x => x * x).sum) := by
  unfold accumState
  rw [accumState_from]
  simp

/-- Closed form of the Welford state: count, mean and centered second moment,
written with the Lean convention that division by zero is zero so that the
formula also covers the empty list. -/
lemma welfordState_eq (xs : List ℚ) :
    welfordState xs =
      (xs.length, xs.sum / (xs.length : ℚ),
        (xs.map fun x => x * x).sum - xs.sum * xs.sum / (xs.length : ℚ)) := by
  induction xs using List.reverseRecOn with
  | nil => simp [welfordState]
  | append_singleton ys x ih =>
    have hstep : welfordState (ys ++ [x]) = welfordStep (welfordState ys) x := by
      unfold welfordState
      rw [List.foldl_append]
      rfl
    rw [hstep, ih]
    rcases eq_or_ne ys [] with rfl | hne
    · simp [welfordStep]
    · have hn : (ys.length : ℚ) ≠ 0 := by
        have hl : ys.length ≠ 0 := fun hc => hne (List.length_eq_zero.mp hc)
        exact_mod_cast Nat.cast_ne_zero.mpr hl
      have hn1 : ((ys.length : ℚ) + 1) ≠ 0 := by positivity
      simp only [welfordStep, List.length_append, List.sum_append,
        List.map_append, List.sum_cons, List.map_cons, List.length_cons,
        List.length_nil, List.sum_nil, List.map_nil, List.append_nil]
      refine Prod.ext rfl (Prod.ext ?_ ?_) <;>
        simp only [] <;> push_cast <;> field_simp <;> ring

/-- Joining the first m batch chunks yields the contiguous index range up to
the smaller of m * batchSize and the requested sample count. -/
lemma batchChunks_join (n m : ℕ) :
    ((List.range m).map fun b =>
      (List.range (currentBatchSize n b)).map fun i =>
        b * batchSize + i).flatten
    = List.range (min (m * batchSize) n) := by
  induction m with
  | zero => simp
  | succ m ih =>
    rw [List.range_succ, List.map_append, List.flatten_append, ih]
    simp only [List.map_cons, List.map_nil, List.flatten_cons,
      List.flatten_nil, List.append_nil]
    rcases le_or_lt n (m * batchSize) with hle | hlt
    · have h1 : currentBatchSize n m = 0 := by
        simp only [currentBatchSize, batchSize] at *
        omega
      have h2 : min (m * batchSize) n = n := by
        simp only [batchSize] at *
        omega
      have h3 : min ((m + 1) * batchSize) n = n := by
        simp only [batchSize] at *
        omega
      rw [h1, h2, h3]
      simp
    · have h2 : min (m * batchSize) n = m * batchSize := by
        simp only [batchSize] at *
        omega
      have hfun : ((List.range (currentBatchSize n m)).map fun i =>
          m * batchSize + i)
          = (List.range (currentBatchSize n m)).map (m * batchSize + ·) := rfl
      rw [h2, hfun, ← List.range_add]
      have h3 : m * batchSize + currentBatchSize n m
          = min ((m + 1) * batchSize) n := by
        simp only [currentBatchSize, batchSize] at *
        omega
      rw [h3]

/-- The nested batch loops of src lines 92-125 visit exactly the indices
0, 1, ..., sampleSize - 1, in order. -/
lemma batchIndices_eq_range (n : ℕ) : batchIndices n = List.range n := by
  unfold batchIndices
  rw [batchChunks_join]
  have h := Nat.div_add_mod (n + batchSize - 1) batchSize
  have : min (numBatches n * batchSize) n = n := by
    simp only [numBatches, batchSize] at *
    omega
  rw [this]

/-- A value whose bin index lies in the guard range of src line 200 is counted
in exactly one bin; summing the bins therefore counts every in-range value
once. -/
lemma sum_binCountAt (vals : List ℚ) (mn w : ℚ) (bc : ℕ)
    (h : ∀ v ∈ vals, 0 ≤ binIndexOf mn w v ∧ binIndexOf mn w v < (bc : ℤ)) :
    ∑ i ∈ Finset.range bc, binCountAt vals mn w i = vals.length := by
  induction vals with
  | nil => simp [binCountAt]
  | cons v vs ih =>
    have hv := h v (List.mem_cons_self v vs)
    have hvs : ∀ x ∈ vs, 0 ≤ binIndexOf mn w x ∧ binIndexOf mn w x < (bc : ℤ) :=
      fun x hx => h x (List.mem_cons_of_mem v hx)
    simp only [binCountAt, List.countP_cons] at *
    rw [Finset.sum_add_distrib, ih hvs]
    have hone : (∑ i ∈ Finset.range bc,
        if decide (binIndexOf mn w v = (i : ℤ)) = true then 1 else 0) = 1 := by
      simp only [decide_eq_true_eq]
      rw [Finset.sum_eq_single (binIndexOf mn w v).toNat]
      · rw [if_pos]
        omega
      · intro i hi hne
        rw [if_neg]
        omega
      · intro hmem
        simp only [Finset.mem_range] at hmem
        omega
    rw [hone]
    simp

/-- An in-domain value receives a bin index inside the guard range. -/
lemma binIndexOf_mem_range (mn mx v : ℚ) (bc : ℕ) (hbc : 0 < bc)
    (hmn : mn < mx) (h1 : mn ≤ v) (h2 : v < mx) :
    0 ≤ binIndexOf mn (binWidth mn mx bc) v ∧
      binIndexOf mn (binWidth mn mx bc) v < (bc : ℤ) := by
  have hbcq : (0:ℚ) < (bc : ℚ) := by exact_mod_cast hbc
  have hw : 0 < binWidth mn mx bc := div_pos (by linarith) hbcq
  constructor
  · apply Int.floor_nonneg.mpr
    exact div_nonneg (by linarith) hw.le
  · apply Int.floor_lt.mpr
    have hcast : (((bc : ℤ)) : ℚ) = (bc : ℚ) := by push_cast; rfl
    rw [hcast, div_lt_iff₀ hw]
    have hbw : (bc : ℚ) * binWidth mn mx bc = mx - mn := by
      unfold binWidth
      field_simp
    rw [mul_comm, ← mul_comm (bc : ℚ), hbw]
    linarith

/-! Claim theorems. -/

/-- C1, counterexample: calculateCosineDistance itself performs no clamping.
On the equal-length pair [2] and [2] it returns 1 - 4 = -3, a value outside
[0, 2] and different from the clamp of that value; the clamp of src line 104
lives in the scheduler loop, not in the distance function. -/
theorem C1_counterexample :
    calculateCosineDistance [(2:ℚ)] [(2:ℚ)] = some (-3) ∧
    clampDistance (-3) = 0 ∧
    ¬((0:ℚ) ≤ -3 ∧ (-3:ℚ) ≤ 2) := by
  refine ⟨?_, ?_, by norm_num⟩
  · simp only [calculateCosineDistance, dotProduct, List.zipWith, List.sum_cons,
      List.sum_nil, List.length_cons, List.length_nil]
    norm_num
  · norm_num [clampDistance, min_def, max_def]

/-- C1, amended: for equal-length inputs calculateCosineDistance returns the
unclamped value 1 minus the dot product; the scheduler then applies the single
clamp of src line 104 to it, and the clamped value always lies in [0, 2]. -/
theorem C1_clamp_site (v1 v2 : List ℚ) (h : v1.length = v2.length) :
    calculateCosineDistance v1 v2 = some (1 - dotProduct v1 v2) ∧
    0 ≤ clampDistance (1 - dotProduct v1 v2) ∧
    clampDistance (1 - dotProduct v1 v2) ≤ 2 := by
  refine ⟨?_, le_max_left 0 _, ?_⟩
  · unfold calculateCosineDistance
    rw [if_neg (by omega)]
  · exact max_le (by norm_num) (min_le_left 2 _)

/-- C1, witness for the amended theorem at the concrete equal-length pair
consisting twice of the singleton list holding one half. -/
theorem C1_clamp_site_witness :
    calculateCosineDistance [(1:ℚ)/2] [(1:ℚ)/2]
        = some (1 - dotProduct [(1:ℚ)/2] [(1:ℚ)/2]) ∧
    0 ≤ clampDistance (1 - dotProduct [(1:ℚ)/2] [(1:ℚ)/2]) ∧
    clampDistance (1 - dotProduct [(1:ℚ)/2] [(1:ℚ)/2]) ≤ 2 :=
  C1_clamp_site [(1:ℚ)/2] [(1:ℚ)/2] rfl

/-- C2, counterexample: the running state kept by src lines 85-86 and 117-118
after the observations 0 and 2 is the pair (2, 4), the plain sum and plain sum
of squares, which is not the pair (1, 2) of running mean and running
sum-of-squared-deviations that the Welford recurrence keeps. -/
theorem C2_counterexample :
    accumState [0, 2] = (2, 4) ∧
    welfordState [0, 2] = (2, 1, 2) ∧
    ((2:ℚ), (4:ℚ)) ≠ ((1:ℚ), (2:ℚ)) := by
  refine ⟨?_, ?_, by norm_num⟩
  · simp only [accumState, accumStep, List.foldl_cons, List.foldl_nil,
      Prod.mk.injEq]
    norm_num
  · simp only [welfordState, welfordStep, List.foldl_cons, List.foldl_nil,
      Prod.mk.injEq]
    norm_num

/-- C2, amended: the source keeps the naive running sum and sum of squares,
not a Welford state; nevertheless, in exact arithmetic the finalized mean and
population variance (hence the population standard deviation) coincide with
the mean and M2 over count of the Welford recurrence. -/
theorem C2_naive_equals_welford (xs : List ℚ) (hne : xs ≠ []) :
    accumState xs = (xs.sum, (xs.map fun x => x * x).sum) ∧
    finalizeStats xs.length (accumState xs).1 (accumState xs).2
      = (some (welfordState xs).2.1,
         some ((welfordState xs).2.2 / ((welfordState xs).1 : ℚ))) ∧
    Real.sqrt (((accumState xs).2 / (xs.length : ℚ)
        - ((accumState xs).1 / (xs.length : ℚ))
          * ((accumState xs).1 / (xs.length : ℚ)) : ℚ) : ℝ)
      = Real.sqrt ((((welfordState xs).2.2 / ((welfordState xs).1 : ℚ) : ℚ)) : ℝ) := by
  have hlen : xs.length ≠ 0 := fun hc => hne (List.length_eq_zero.mp hc)
  have hlq : (xs.length : ℚ) ≠ 0 := Nat.cast_ne_zero.mpr hlen
  have hvar : (xs.map fun x => x * x).sum / (xs.length : ℚ)
      - xs.sum / (xs.length : ℚ) * (xs.sum / (xs.length : ℚ))
      = ((xs.map fun x => x * x).sum - xs.sum * xs.sum / (xs.length : ℚ))
          / (xs.length : ℚ) := by
    field_simp
    ring
  refine ⟨accumState_eq xs, ?_, ?_⟩
  · rw [accumState_eq, welfordState_eq]
    simp only [finalizeStats, if_neg hlen]
    rw [hvar]
  · rw [accumState_eq, welfordState_eq]
    simp only []
    rw [hvar]

/-- C2, witness for the amended theorem at the concrete observation list
1, 2, 3. -/
theorem C2_naive_equals_welford_witness :
    ([(1:ℚ), 2, 3] ≠ []) ∧
    (accumState [(1:ℚ), 2, 3]
        = ([(1:ℚ), 2, 3].sum, ([(1:ℚ), 2, 3].map fun x => x * x).sum) ∧
    finalizeStats [(1:ℚ), 2, 3].length (accumState [(1:ℚ), 2, 3]).1
        (accumState [(1:ℚ), 2, 3]).2
      = (some (welfordState [(1:ℚ), 2, 3]).2.1,
         some ((welfordState [(1:ℚ), 2, 3]).2.2
            / ((welfordState [(1:ℚ), 2, 3]).1 : ℚ))) ∧
    Real.sqrt (((accumState [(1:ℚ), 2, 3]).2 / ([(1:ℚ), 2, 3].length : ℚ)
        - ((accumState [(1:ℚ), 2, 3]).1 / ([(1:ℚ), 2, 3].length : ℚ))
          * ((accumState [(1:ℚ), 2, 3]).1 / ([(1:ℚ), 2, 3].length : ℚ)) : ℚ) : ℝ)
      = Real.sqrt ((((welfordState [(1:ℚ), 2, 3]).2.2
            / ((welfordState [(1:ℚ), 2, 3]).1 : ℚ) : ℚ)) : ℝ)) :=
  ⟨by simp, C2_naive_equals_welford [(1:ℚ), 2, 3] (by simp)⟩

/-- C3, counterexample: on the unequal-length pair [1] and [1, 0] the source
raises nothing; the loop runs over the first list only and the call succeeds,
returning 1 - 1 = 0.  No DimensionMismatch check exists in the source. -/
theorem C3_counterexample :
    ([(1:ℚ)]).length ≠ ([(1:ℚ), 0]).length ∧
    calculateCosineDistance [(1:ℚ)] [(1:ℚ), 0] = some 0 := by
  refine ⟨by simp, ?_⟩
  simp only [calculateCosineDistance, dotProduct, List.zipWith, List.sum_cons,
    List.sum_nil, List.length_cons, List.length_nil]
  norm_num

/-- C3, amended: the source performs no length check; the loop of src lines
47-49 runs over the indices of vec1, so the computation yields a number
exactly when vec2 is at least as long as vec1 (extra entries of vec2 are
ignored), and when vec2 is shorter the out-of-bounds read makes the result
NaN. -/
theorem C3_no_length_check (v1 v2 : List ℚ) :
    (calculateCosineDistance v1 v2).isSome = true ↔ v1.length ≤ v2.length := by
  unfold calculateCosineDistance
  split
  · simpa using by omega
  · simpa using by omega

/-- C4, counterexample: the Box-Muller body can legitimately produce the
variate 0 from the nonzero uniform draws one half and one quarter, because the
cosine factor vanishes; with dimension 1 the raw norm is then 0, and instead
of discarding and resampling, the source divides by the zero magnitude, so the
result is the NaN vector, modelled as none. -/
theorem C4_counterexample :
    (1/2 : ℝ) ≠ 0 ∧ (1/4 : ℝ) ≠ 0 ∧
    normalRandom (1/2) (1/4) = 0 ∧
    generateRandomUnitVector [normalRandom (1/2) (1/4)] = none := by
  have hc : Real.cos (2.0 * Real.pi * (1/4)) = 0 := by
    have harg : (2.0 * Real.pi * (1/4) : ℝ) = Real.pi / 2 := by ring
    rw [harg, Real.cos_pi_div_two]
  have hz : normalRandom (1/2) (1/4) = 0 := by
    unfold normalRandom
    rw [hc, mul_zero]
  refine ⟨by norm_num, by norm_num, hz, ?_⟩
  rw [hz]
  unfold generateRandomUnitVector
  simp

/-- C4, amended: the redraw guard does ensure that the value fed to the
logarithm is nonzero, and whenever the raw sum of squares is nonzero the
returned vector has squared Euclidean norm exactly 1 in exact arithmetic; but
the source has no zero-norm discard-and-resample path, so the norm guarantee
holds only conditionally on a nonzero raw norm. -/
theorem C4_guard_and_norm (ds : List ℚ) (u : ℚ) (hu : firstNonzero ds = some u)
    (vals : List ℝ) (hs : (vals.map fun x => x * x).sum ≠ 0) :
    u ≠ 0 ∧
    ∃ w, generateRandomUnitVector vals = some w ∧
      (w.map fun x => x * x).sum = 1 :=
  ⟨firstNonzero_ne_zero ds u hu, generateRandomUnitVector_normSq vals hs⟩

/-- C4, witness for the amended theorem: the draw prefix 0 then one half for
the redraw loop, and the coordinate list 3, 4 whose sum of squares is 25. -/
theorem C4_guard_and_norm_witness :
    firstNonzero [0, 1/2] = some (1/2) ∧
    (([3, 4] : List ℝ).map fun x => x * x).sum ≠ 0 ∧
    ((1/2 : ℚ) ≠ 0 ∧
      ∃ w, generateRandomUnitVector [3, 4] = some w ∧
        (w.map fun x => x * x).sum = 1) := by
  have hs : (([3, 4] : List ℝ).map fun x => x * x).sum ≠ 0 := by
    simp only [List.map_cons, List.map_nil, List.sum_cons, List.sum_nil]
    norm_num
  exact ⟨by norm_num [firstNonzero], hs,
    C4_guard_and_norm [0, 1/2] (1/2) (by norm_num [firstNonzero]) [3, 4] hs⟩

/-- C5, counterexample: with a sample-size policy returning 0 for dimension 64
the run does not fail; it returns a complete result list containing a record
for dimension 64 whose statistics are NaN.  No InvalidSampleSize error exists
in the source. -/
theorem C5_counterexample :
    generateSyntheticData (fun _ => 0) (fun _ _ => 0) [64]
      = [⟨64, 0, none, none, []⟩] ∧
    generateSyntheticData (fun _ => 0) (fun _ _ => 0) [64] ≠ [] := by
  constructor
  · rfl
  · intro h
    simp [generateSyntheticData] at h

/-- C5, amended: the scheduler never aborts: for every policy and every draw
source it returns exactly one record per requested dimension; the built-in
policy getAdjustedSampleSize always returns a positive count, so a
non-positive count never arises in the shipped configuration, and a dimension
processed with count 0 still yields a record, with NaN mean. -/
theorem C5_total_run (policy : ℕ → ℕ) (draws : ℕ → ℕ → ℚ) (dims : List ℕ)
    (d : ℕ) (draw : ℕ → ℚ) :
    (generateSyntheticData policy draws dims).length = dims.length ∧
    0 < getAdjustedSampleSize d ∧
    (processDimension draw d 0).originalMean = none := by
  refine ⟨by simp [generateSyntheticData], ?_, rfl⟩
  unfold getAdjustedSampleSize
  split
  · norm_num
  · split <;> norm_num

/-- C6, counterexample: finalizing the accumulator at zero observations does
not fail; the source divides by the zero count, so the mean and the variance
are both NaN.  No InsufficientSamples error exists in the source. -/
theorem C6_counterexample :
    finalizeStats 0 0 0 = (none, none) ∧
    processDimension (fun _ => 0) 2 0 = ⟨2, 0, none, none, []⟩ :=
  ⟨rfl, rfl⟩

/-- C6, amended: finalization performs no zero-count check; its mean and
variance are NaN exactly when the count is zero, and are ordinary numbers for
every positive count. -/
theorem C6_nan_finalize (n : ℕ) (sum sumSq : ℚ) :
    finalizeStats 0 sum sumSq = (none, none) ∧
    ((finalizeStats n sum sumSq).1 = none ↔ n = 0) ∧
    ((finalizeStats n sum sumSq).2 = none ↔ n = 0) := by
  unfold finalizeStats
  refine ⟨rfl, ?_, ?_⟩ <;> split <;> simp_all

/-- C7, counterexample: on the empty sample collection, with the domain 0 to 2
and 40 bins of src lines 189-192, every sample (vacuously) lies in the domain
yet the total density mass is 0 and not 1, because the source divides the
zero counts by the zero total sample count (NaN in JavaScript, 0 in this
exact model). -/
theorem C7_counterexample :
    (∀ v ∈ ([] : List ℚ), (0:ℚ) ≤ v ∧ v < 2) ∧
    ∑ i ∈ Finset.range 40,
        densityAt [] 0 (binWidth 0 2 40) i * binWidth 0 2 40 = 0 ∧
    (0 : ℚ) ≠ 1 := by
  refine ⟨by simp, ?_, by norm_num⟩
  simp [densityAt, binCountAt]

/-- C7, amended: for every nonempty sample collection, domain bounds with
domainMin less than domainMax and positive bin count, the density of bin i is
the bin count over totalSamples times binWidth, out-of-domain values are
counted in no displayed bin, and the total density mass is exactly 1 when
every sample lies in the half-open domain. -/
theorem C7_density_sums_to_one (vals : List ℚ) (mn mx : ℚ) (binCnt : ℕ)
    (hbc : 0 < binCnt) (hmn : mn < mx) (hne : vals ≠ [])
    (hin : ∀ v ∈ vals, mn ≤ v ∧ v < mx) :
    (∀ i, densityAt vals mn (binWidth mn mx binCnt) i
        = (binCountAt vals mn (binWidth mn mx binCnt) i : ℚ)
            / ((vals.length : ℚ) * binWidth mn mx binCnt)) ∧
    (∀ v, (v < mn ∨ mx ≤ v) → ∀ i < binCnt,
        binIndexOf mn (binWidth mn mx binCnt) v ≠ (i : ℤ)) ∧
    ∑ i ∈ Finset.range binCnt,
        densityAt vals mn (binWidth mn mx binCnt) i * binWidth mn mx binCnt
      = 1 := by
  have hbcq : (0:ℚ) < (binCnt : ℚ) := by exact_mod_cast hbc
  have hw : 0 < binWidth mn mx binCnt := div_pos (by linarith) hbcq
  have hlen : vals.length ≠ 0 := fun hc => hne (List.length_eq_zero.mp hc)
  have hlq : (vals.length : ℚ) ≠ 0 := Nat.cast_ne_zero.mpr hlen
  refine ⟨?_, ?_, ?_⟩
  · intro i
    unfold densityAt
    rw [div_div]
  · intro v hv i hi
    rcases hv with hlo | hhi
    · intro he
      have h0 : binIndexOf mn (binWidth mn mx binCnt) v < 0 := by
        apply Int.floor_lt.mpr
        push_cast
        rw [div_lt_iff₀ hw]
        simp only [zero_mul]
        linarith
      omega
    · intro he
      have hbw : (binCnt : ℚ) * binWidth mn mx binCnt = mx - mn := by
        unfold binWidth
        field_simp
      have h0 : (binCnt : ℤ) ≤ binIndexOf mn (binWidth mn mx binCnt) v := by
        apply Int.le_floor.mpr
        push_cast
        rw [le_div_iff₀ hw]
        rw [hbw]
        linarith
      omega
  · have hcnt : ∑ i ∈ Finset.range binCnt,
        binCountAt vals mn (binWidth mn mx binCnt) i = vals.length := by
      apply sum_binCountAt
      intro v hv
      exact binIndexOf_mem_range mn mx v binCnt hbc hmn (hin v hv).1 (hin v hv).2
    have hterm : ∀ i, densityAt vals mn (binWidth mn mx binCnt) i
        * binWidth mn mx binCnt
        = (binCountAt vals mn (binWidth mn mx binCnt) i : ℚ)
            / (vals.length : ℚ) := by
      intro i
      unfold densityAt
      rw [div_mul_cancel₀ _ (ne_of_gt hw)]
    calc ∑ i ∈ Finset.range binCnt,
          densityAt vals mn (binWidth mn mx binCnt) i * binWidth mn mx binCnt
        = ∑ i ∈ Finset.range binCnt,
            (binCountAt vals mn (binWidth mn mx binCnt) i : ℚ)
              / (vals.length : ℚ) := by
          exact Finset.sum_congr rfl fun i _ => hterm i
      _ = (∑ i ∈ Finset.range binCnt,
            (binCountAt vals mn (binWidth mn mx binCnt) i : ℚ))
              / (vals.length : ℚ) := by
          rw [Finset.sum_div]
      _ = 1 := by
          rw [← Nat.cast_sum, hcnt, div_self hlq]

/-- C7, witness for the amended theorem at the collection 0, 1, 3 halves with
the domain 0 to 2 and 40 bins used by the source for original distances. -/
theorem C7_density_sums_to_one_witness :
    0 < 40 ∧ (0:ℚ) < 2 ∧ ([(0:ℚ), 1, 3/2] ≠ []) ∧
    (∀ v ∈ [(0:ℚ), 1, 3/2], (0:ℚ) ≤ v ∧ v < 2) ∧
    ((∀ i, densityAt [(0:ℚ), 1, 3/2] 0 (binWidth 0 2 40) i
        = (binCountAt [(0:ℚ), 1, 3/2] 0 (binWidth 0 2 40) i : ℚ)
            / (([(0:ℚ), 1, 3/2].length : ℚ) * binWidth 0 2 40)) ∧
    (∀ v, (v < 0 ∨ (2:ℚ) ≤ v) → ∀ i : ℕ, i < 40 →
        binIndexOf 0 (binWidth 0 2 40) v ≠ (i : ℤ)) ∧
    ∑ i ∈ Finset.range 40,
        densityAt [(0:ℚ), 1, 3/2] 0 (binWidth 0 2 40) i * binWidth 0 2 40
      = 1) := by
  have hin : ∀ v ∈ [(0:ℚ), 1, 3/2], (0:ℚ) ≤ v ∧ v < 2 := by
    intro v hv
    simp only [List.mem_cons, List.not_mem_nil, or_false] at hv
    rcases hv with rfl | rfl | rfl <;> norm_num
  exact ⟨by norm_num, by norm_num, by simp, hin,
    C7_density_sums_to_one [(0:ℚ), 1, 3/2] 0 2 40 (by norm_num) (by norm_num)
      (by simp) hin⟩

/-- C8: the normalization of src lines 107-108 computes the distance minus 1,
times the square root of the dimension, times an alpha that is 1.5 exactly for
dimensions up to 3 and 1 otherwise, plus 1; in particular 1 is a fixed point
for every dimension, dimension 3 maps distance 2 to 1.5 times the square root
of 3 plus 1, and dimension 4 maps distance 2 to 3. -/
theorem C8_normalizer_formula (x : ℝ) (d : ℕ) (hd : 0 < d) :
    normalizedDistance x d
      = (x - 1) * Real.sqrt d * (if d ≤ 3 then (1.5:ℝ) else 1) + 1 ∧
    normalizedDistance 1 d = 1 ∧
    normalizedDistance 2 3 = 1.5 * Real.sqrt 3 + 1 ∧
    normalizedDistance 2 4 = 3 := by
  have hform : ∀ (y : ℝ) (k : ℕ), normalizedDistance y k
      = (y - 1) * Real.sqrt k * (if k ≤ 3 then (1.5:ℝ) else 1) + 1 := by
    intro y k
    unfold normalizedDistance scalingFactor
    split <;> norm_num <;> ring
  have hsqrt4 : Real.sqrt ((4:ℕ) : ℝ) = 2 := by
    have h4 : ((4:ℕ) : ℝ) = (2:ℝ) ^ 2 := by norm_num
    rw [h4, Real.sqrt_sq (by norm_num : (0:ℝ) ≤ 2)]
  refine ⟨hform x d, ?_, ?_, ?_⟩
  · rw [hform]
    ring
  · rw [hform]
    have h3 : ((3:ℕ) : ℝ) = (3:ℝ) := by norm_num
    rw [if_pos (by norm_num), h3]
    ring
  · rw [hform]
    rw [if_neg (by norm_num), hsqrt4]
    norm_num

/-- C8, witness for the theorem at distance 2 and dimension 4. -/
theorem C8_normalizer_formula_witness :
    0 < 4 ∧
    (normalizedDistance 2 4
        = ((2:ℝ) - 1) * Real.sqrt ((4:ℕ) : ℝ) * (if 4 ≤ 3 then (1.5:ℝ) else 1) + 1 ∧
    normalizedDistance 1 4 = 1 ∧
    normalizedDistance 2 3 = 1.5 * Real.sqrt 3 + 1 ∧
    normalizedDistance 2 4 = 3) :=
  ⟨by norm_num, C8_normalizer_formula 2 4 (by norm_num)⟩

/-- C9: for every positive requested count n and every sequential draw source,
the batched loops of src lines 89-125 produce exactly n samples, the sample
sequence equals that of a single unbatched loop over the same n draws, and the
accumulated sums and finalized statistics agree; batch boundaries have no
effect on the data. -/
theorem C9_batching_equiv (draw : ℕ → ℚ) (n : ℕ) (hn : 0 < n) :
    (batchedSamples draw n).length = n ∧
    batchedSamples draw n = (List.range n).map draw ∧
    accumState (batchedSamples draw n) = accumState ((List.range n).map draw) ∧
    finalizeStats n (accumState (batchedSamples draw n)).1
        (accumState (batchedSamples draw n)).2
      = finalizeStats n (accumState ((List.range n).map draw)).1
          (accumState ((List.range n).map draw)).2 := by
  have h : batchedSamples draw n = (List.range n).map draw := by
    unfold batchedSamples
    rw [batchIndices_eq_range]
  refine ⟨?_, h, by rw [h], by rw [h]⟩
  rw [h]
  simp

/-- C9, witness for the theorem at n = 250, which exercises two full batches
of 100 and one final partial batch of 50, with the draw source returning the
draw index as a rational. -/
theorem C9_batching_equiv_witness :
    0 < 250 ∧
    ((batchedSamples (fun k => (k:ℚ)) 250).length = 250 ∧
    batchedSamples (fun k => (k:ℚ)) 250 = (List.range 250).map (fun k => (k:ℚ)) ∧
    accumState (batchedSamples (fun k => (k:ℚ)) 250)
      = accumState ((List.range 250).map (fun k => (k:ℚ))) ∧
    finalizeStats 250 (accumState (batchedSamples (fun k => (k:ℚ)) 250)).1
        (accumState (batchedSamples (fun k => (k:ℚ)) 250)).2
      = finalizeStats 250 (accumState ((List.range 250).map (fun k => (k:ℚ)))).1
          (accumState ((List.range 250).map (fun k => (k:ℚ)))).2) :=
  ⟨by norm_num, C9_batching_equiv (fun k => (k:ℚ)) 250 (by norm_num)⟩

/-- C10: for every dimension of at least 1 the scaling factor of src line 107
is strictly positive, so the normalization map of src line 108 is strictly
increasing in the distance and preserves the relative order of distances
within a fixed dimension. -/
theorem C10_normalization_monotone (d : ℕ) (hd : 1 ≤ d) (x y : ℝ)
    (hxy : x < y) :
    0 < scalingFactor d ∧ normalizedDistance x d < normalizedDistance y d := by
  have hdq : (0:ℝ) < (d : ℝ) := by
    have : (1:ℝ) ≤ (d : ℝ) := by exact_mod_cast hd
    linarith
  have hds : (0:ℝ) < Real.sqrt d := Real.sqrt_pos.mpr hdq
  have hsf : 0 < scalingFactor d := by
    unfold scalingFactor
    split
    · nlinarith
    · exact hds
  refine ⟨hsf, ?_⟩
  unfold normalizedDistance
  have hmul := mul_lt_mul_of_pos_right
    (sub_lt_sub_right hxy (1.0:ℝ)) hsf
  linarith

/-- C10, witness for the theorem at dimension 2 and the distance pair 0, 1. -/
theorem C10_normalization_monotone_witness :
    1 ≤ 2 ∧ (0:ℝ) < 1 ∧
    (0 < scalingFactor 2 ∧ normalizedDistance 0 2 < normalizedDistance 1 2) :=
  ⟨by norm_num, by norm_num, C10_normalization_monotone 2 (by norm_num) 0 1 (by norm_num)⟩

end HDCM
